import Mathlib

/-!
Verification development for the django-serializers core
(serializers/serializer.py).

The development shallowly embeds the field-declaration collection, option
resolution, field-resolution policy and the recursive object-to-primitive
graph walker of serializer.py.  Python objects live in an explicit heap
(object identity = heap index); the walker is written as a single
fuel-indexed evaluator so that concrete runs reduce inside the kernel.

Parts of the repository that serializer.py imports but that are not part
of the shown source (serializers/fields.py with the leaf Field class, and
serializers/utils.py with SortedDictWithMetadata) are modelled from the
specification; each such definition carries a doc comment saying so.
-/

/-- Python value of the `nested` serializer option: either a bool
(`False` = flat, `True` = unlimited) or an int (remaining depth budget). -/
inductive NOpt where
  | nbool : Bool → NOpt
  | nint : Int → NOpt
deriving DecidableEq

/-- Python truthiness of an `NOpt` value (`bool(x)`): a bool is itself,
an int is truthy iff nonzero. -/
def NOpt.truthy : NOpt → Bool
  | .nbool b => b
  | .nint n => n != 0

/-- `isinstance(x, bool)` for an `NOpt` value. -/
def NOpt.isBoolVal : NOpt → Bool
  | .nbool _ => true
  | .nint _ => false

/-- Nested-option propagation from parent to child, from
`BaseSerializer.initialize` (serializer.py lines 173-176):
`if parent.opts.nested and not isinstance(parent.opts.nested, bool):
   self.opts.nested = parent.opts.nested - 1
 else: self.opts.nested = parent.opts.nested`. -/
def initNestedOpt (parent : NOpt) : NOpt :=
  if parent.truthy && !parent.isBoolVal then
    match parent with
    | .nint n => .nint (n - 1)
    | .nbool b => .nbool b
  else parent

/-- The condition under which claim C3, as stated, predicts the decrement:
the parent's nested value is a positive non-boolean integer. -/
def claimPositiveInt : NOpt → Bool
  | .nint n => 0 < n
  | .nbool _ => false

/-- Python runtime values occurring in the serialized object graphs:
protected scalars (None, int, str), references to composite objects held
in an explicit heap, and lists. -/
inductive PyVal where
  | vnone : PyVal
  | vint : Int → PyVal
  | vstr : String → PyVal
  | ref : Nat → PyVal
  | vlist : List PyVal → PyVal

/-- Primitive trees produced by the first serialization stage: scalars,
the flat (non-nested) representation of a composite object, lazy sequences
(consumed to lists) and ordered mappings. -/
inductive Prim where
  | pnone : Prim
  | pint : Int → Prim
  | pstr : String → Prim
  | flatRef : Nat → Prim
  | plist : List Prim → Prim
  | pmap : List (String × Prim) → Prim

/-- The heap: object identity (a Nat) to the object's instance dictionary
(`obj.__dict__`), an ordered mapping from attribute name to value. -/
abbrev Heap := List (Nat × List (String × PyVal))

/-- Failures of the embedded code paths.  `outOfFuel` is an artefact of the
fuel-indexed evaluator (a run that returns `.ok` under some fuel
terminates); the others correspond to Python exceptions:
`attrMissing` to AttributeError, `keyMissing` to the KeyError raised when
an allowlisted field name is absent from the resolved field set (a
configuration fault), `deserNotSupported` to the Exception raised by
`ObjectSerializer.default_fields` on a `None` object (a data-direction
usage fault), `shapeError` to an internal impossible-shape marker. -/
inductive Err where
  | outOfFuel : Err
  | attrMissing : String → Err
  | keyMissing : String → Err
  | deserNotSupported : Err
  | shapeError : Err
deriving DecidableEq

/-- Look up a composite object's instance dictionary in the heap. -/
def heapAttrs (h : Heap) (id : Nat) : Except Err (List (String × PyVal)) :=
  match List.lookup id h with
  | some attrs => Except.ok attrs
  | none => Except.error (Err.attrMissing "object")

/-- `getattr(obj, name)` for a heap object. -/
def getattrE (h : Heap) (id : Nat) (name : String) : Except Err PyVal := do
  let attrs ← heapAttrs h id
  match List.lookup name attrs with
  | some v => Except.ok v
  | none => Except.error (Err.attrMissing name)

/-- `key.startswith('_')` on an attribute name: its first character is an
underscore. -/
def startsUnderscore (n : String) : Bool :=
  match n.data with
  | [] => false
  | c :: _ => c = '_'

/-- Boolean lexicographic order on character lists, by code point, matching
Python's string comparison used by `sorted` for the ASCII attribute names
occurring here. -/
def lexLe : List Char → List Char → Bool
  | [], _ => true
  | _ :: _, [] => false
  | a :: as, b :: bs =>
    if a.toNat < b.toNat then true
    else if a.toNat = b.toNat then lexLe as bs
    else false

/-- Lexicographic order on strings (Python `<=` on str). -/
def strLeB (a b : String) : Bool := lexLe a.data b.data

/-- `strLeB` as a relation for Mathlib's sorting lemmas. -/
def strRel (a b : String) : Prop := strLeB a b = true

instance : DecidableRel strRel := fun a b => instDecidableEqBool (strLeB a b) true

/-- Python `sorted` on a list of strings. -/
def sortNames (l : List String) : List String := List.insertionSort strRel l

section FieldPolicy

variable {α : Type}

/-- Merge step of `get_fields` (serializer.py lines 143-147): default
fields are appended after the declared ones, and a default is added only
under a name not already bound by a declared field. -/
def mergeDeclaredDefaults (declared defaults : List (String × α)) :
    List (String × α) :=
  declared ++ defaults.filter (fun kv => !(declared.map Prod.fst).contains kv.1)

/-- `SortedDict.__setitem__`: overwrite in place when the key is already
bound, append otherwise. -/
def sdInsert (acc : List (String × α)) (k : String) (v : α) :
    List (String × α) :=
  if (acc.map Prod.fst).contains k then
    acc.map (fun kv => if kv.1 = k then (k, v) else kv)
  else acc ++ [(k, v)]

/-- Allowlist rebuild of `get_fields` (serializer.py lines 149-154): walk
`Options.fields` in its given order and pull each named entry from the
merged mapping; a missing name raises KeyError (`new[key] = ret[key]`). -/
def applyAllowlist (m : List (String × α)) (allow : List String) :
    Except Err (List (String × α)) :=
  if allow.isEmpty then Except.ok m
  else
    List.foldlM
      (fun acc k =>
        match List.lookup k m with
        | some v => Except.ok (sdInsert acc k v)
        | none => Except.error (Err.keyMissing k))
      [] allow

/-- Exclusion step of `get_fields` (serializer.py lines 156-159):
`ret.pop(key, None)` for every excluded name, a silent no-op when the name
is absent. -/
def applyExclusions (m : List (String × α)) (excl : List String) :
    List (String × α) :=
  m.filter (fun kv => !excl.contains kv.1)

/-- The pure field-resolution policy of `get_fields` (serializer.py lines
143-161) over an already-built declared mapping and default mapping:
merge (declared wins), then allowlist, then exclusions. -/
def getFieldsCore (declared defaults : List (String × α))
    (allow excl : List String) : Except Err (List (String × α)) := do
  let merged := mergeDeclaredDefaults declared defaults
  let allowed ← applyAllowlist merged allow
  Except.ok (applyExclusions allowed excl)

end FieldPolicy

/-- Modelled from the spec: the leaf `Field` class lives in
serializers/fields.py, which is not part of the shown source.  The spec
records that each Field carries a monotonic declaration-order counter used
to sort fields across inheritance merges; `tag` distinguishes distinct
Field instances. -/
structure DField where
  creation_counter : Nat
  tag : Nat
deriving DecidableEq

/-- Order on declared fields by their declaration-order counter, the key
used by `fields.sort(key=lambda x: x[1].creation_counter)`. -/
def counterRel (a b : String × DField) : Prop :=
  a.2.creation_counter ≤ b.2.creation_counter

instance : DecidableRel counterRel :=
  fun a b => Nat.decLe a.2.creation_counter b.2.creation_counter

instance : IsTotal (String × DField) counterRel :=
  ⟨fun a b => Nat.le_total a.2.creation_counter b.2.creation_counter⟩

instance : IsTrans (String × DField) counterRel :=
  ⟨fun _ _ _ hab hbc => Nat.le_trans hab hbc⟩

/-- Python's stable `list.sort` by creation counter. -/
def sortByCounter (l : List (String × DField)) : List (String × DField) :=
  List.insertionSort counterRel l

/-- Key order of a Django `SortedDict` built from a pair list: the first
occurrence of each key fixes its position. -/
def dedupKeysGo (seen : List String) : List String → List String
  | [] => []
  | k :: rest =>
    if seen.contains k then dedupKeysGo seen rest
    else k :: dedupKeysGo (k :: seen) rest

/-- Value bound to a key by a pair list under dict semantics: the last
binding wins. -/
def lastBinding (l : List (String × α)) (k : String) : Option α :=
  List.lookup k l.reverse

/-- Django `SortedDict(pairs)`: key order by first occurrence, value by
last binding. -/
def sortedDictOfPairs {α : Type} (l : List (String × α)) : List (String × α) :=
  (dedupKeysGo [] (l.map Prod.fst)).filterMap
    (fun k => (lastBinding l k).map (fun v => (k, v)))

/-- `_get_declared_fields(bases, attrs)` (serializer.py lines 37-56): sort
the directly declared fields by creation counter, prepend each base's
resolved field set walking the bases in reverse, and build a SortedDict
from the concatenation. -/
def get_declared_fields (bases : List (List (String × DField)))
    (attrs : List (String × DField)) : List (String × DField) :=
  let fields := sortByCounter attrs
  let fields := bases.reverse.foldl (fun acc base => base ++ acc) fields
  sortedDictOfPairs fields

/-- Values admissible for the renderer/parser registry options: a mapping
from format name to (the name of) a renderer or parser class. -/
abbrev RegistryMap := List (String × String)

/-- The `Meta` configuration block of a serializer type: each option is
either declared (`some`) or absent (`none`, `getattr` default). -/
structure MetaOpts where
  nested : Option NOpt
  fields : Option (List String)
  exclude : Option (List String)
  is_root : Option Bool
  renderer_classes : Option RegistryMap
  parser_classes : Option RegistryMap

/-- Keyword overrides passed at Serializer construction time
(`Serializer(**kwargs)`): present (`some`) or not passed (`none`). -/
structure KwOpts where
  nested : Option NOpt
  fields : Option (List String)
  exclude : Option (List String)
  is_root : Option Bool
  renderer_classes : Option RegistryMap
  parser_classes : Option RegistryMap

/-- The resolved per-instance Options value. -/
structure ROptions where
  nested : NOpt
  fields : List String
  exclude : List String
  is_root : Bool
  renderer_classes : RegistryMap
  parser_classes : RegistryMap
deriving DecidableEq

/-- Hard-coded default renderer registry (serializer.py lines 69-75). -/
def defaultRenderers : RegistryMap :=
  [("xml", "XMLRenderer"), ("json", "JSONRenderer"), ("yaml", "YAMLRenderer"),
   ("csv", "CSVRenderer"), ("html", "HTMLRenderer")]

/-- Hard-coded default parser registry (serializer.py lines 76-78). -/
def defaultParsers : RegistryMap := [("json", "JSONParser")]

/-- `_get_option(name, kwargs, meta, default)` (serializer.py lines
59-60): `kwargs.get(name, getattr(meta, name, default))`. -/
def get_option {β : Type} (kw : Option β) (meta : Option β) (default : β) : β :=
  match kw with
  | some v => v
  | none => meta.getD default

/-- `SerializerOptions.__init__` (serializer.py lines 63-78): `nested`,
`fields`, `exclude` and the two registries read only the Meta block
(`getattr(meta, name, default)`); only `is_root` goes through
`_get_option`, consulting the construction-time kwargs first. -/
def serializerOptionsInit (meta : MetaOpts) (kwargs : KwOpts) : ROptions :=
  { nested := meta.nested.getD (.nbool false)
    fields := meta.fields.getD []
    exclude := meta.exclude.getD []
    is_root := get_option kwargs.is_root meta.is_root false
    renderer_classes := meta.renderer_classes.getD defaultRenderers
    parser_classes := meta.parser_classes.getD defaultParsers }

/-- Option resolution as claim C4 words it: every option checks the
construction-time keyword override first, then Meta, then the default.
Stated only for comparison against `serializerOptionsInit`. -/
def claimOptionsInit (meta : MetaOpts) (kwargs : KwOpts) : ROptions :=
  { nested := get_option kwargs.nested meta.nested (.nbool false)
    fields := get_option kwargs.fields meta.fields []
    exclude := get_option kwargs.exclude meta.exclude []
    is_root := get_option kwargs.is_root meta.is_root false
    renderer_classes :=
      get_option kwargs.renderer_classes meta.renderer_classes defaultRenderers
    parser_classes :=
      get_option kwargs.parser_classes meta.parser_classes defaultParsers }

/-- A Meta block declaring nothing. -/
def emptyMeta : MetaOpts := ⟨none, none, none, none, none, none⟩

/-- A construction call passing no keyword overrides. -/
def emptyKw : KwOpts := ⟨none, none, none, none, none, none⟩

/-- Concrete serializer variants whose `default_fields` hooks appear in the
shown source: the plain `Serializer` (BaseSerializer.default_fields returns
an empty dict, lines 114-118) and `ObjectSerializer` (lines 342-359). -/
inductive SVariant where
  | baseS : SVariant
  | objectS : SVariant
deriving DecidableEq

mutual
/-- A resolved field of a serializer: either a leaf `Field` instance
(modelled from the spec, fields.py not being part of the shown source:
a leaf Field extracts the named attribute and converts it flat), or a
serializer instance used as a field. -/
inductive FieldI where
  | plain : FieldI
  | child : SState → FieldI

/-- The mutable state of one serializer instance: variant, the options
`nested`, `is_root`, `fields` (allowlist) and `exclude`, the
cycle-detection stack of visited object identities, the in-progress
traversal scratch attributes `self.obj` and `self.field_name`, and the
declared field instances `self.fields`. -/
inductive SState where
  | mk : SVariant → NOpt → Bool → List String → List String → List Nat →
         Option Nat → Option String → List (String × FieldI) → SState
end

def SState.variantOf : SState → SVariant
  | .mk v _ _ _ _ _ _ _ _ => v

def SState.nestedOf : SState → NOpt
  | .mk _ n _ _ _ _ _ _ _ => n

def SState.isRootOf : SState → Bool
  | .mk _ _ r _ _ _ _ _ _ => r

def SState.allowOf : SState → List String
  | .mk _ _ _ a _ _ _ _ _ => a

def SState.exclOf : SState → List String
  | .mk _ _ _ _ e _ _ _ _ => e

def SState.stackOf : SState → List Nat
  | .mk _ _ _ _ _ st _ _ _ => st

def SState.curObjOf : SState → Option Nat
  | .mk _ _ _ _ _ _ o _ _ => o

def SState.fieldNameOf : SState → Option String
  | .mk _ _ _ _ _ _ _ fn _ => fn

def SState.fieldsOf : SState → List (String × FieldI)
  | .mk _ _ _ _ _ _ _ _ fs => fs

/-- `self.stack.append(obj)` in `determine_recursion` (line 209). -/
def SState.pushStack (s : SState) (id : Nat) : SState :=
  match s with
  | .mk v n r a e st o fn fs => .mk v n r a e (st ++ [id]) o fn fs

/-- Record `self.obj` and `self.field_name` at the start of
`field_to_native` (lines 179-180). -/
def SState.withContext (s : SState) (o : Option Nat) (fn : Option String) :
    SState :=
  match s with
  | .mk v n r a e st _ _ fs => .mk v n r a e st o fn fs

/-- Replace the declared field instances. -/
def SState.withFields (s : SState) (fs : List (String × FieldI)) : SState :=
  match s with
  | .mk v n r a e st o fn _ => .mk v n r a e st o fn fs

/-- `self.stack = []` at the start of `serialize` (line 291). -/
def SState.withStack (s : SState) (st : List Nat) : SState :=
  match s with
  | .mk v n r a e _ o fn fs => .mk v n r a e st o fn fs

/-- `BaseSerializer.initialize(parent, model_field)` (lines 166-176)
applied to a declared field instance during `get_fields`: a leaf Field
only records its parent back-reference; a serializer field additionally
copies the parent's cycle stack (`self.stack = parent.stack[:]`) and
derives its `nested` option from the parent's. -/
def reinitField (parent : SState) : FieldI → FieldI
  | .plain => .plain
  | .child cs =>
    match cs with
    | .mk v _ r a e _ o fn fs =>
      .child (.mk v (initNestedOpt parent.nestedOf) r a e parent.stackOf o fn fs)

/-- `self.__class__()` followed by `field.initialize(parent=self)` inside
`ObjectSerializer.default_fields` (lines 353-357): a fresh
ObjectSerializer with default options (class Meta declares nothing, so
`nested=False`, `fields=()`, `exclude=()`, `is_root=False`), whose
initialize then copies the parent's stack and derives `nested`. -/
def freshObjectChild (parent : SState) : SState :=
  .mk .objectS (initNestedOpt parent.nestedOf) false [] [] parent.stackOf
    none none []

/-- `ObjectSerializer.default_fields(obj, cls, nested)` (lines 343-359):
raise on a `None` object; otherwise one field per non-underscore
instance-dictionary attribute, walked in sorted name order; a nested
(truthy) budget produces a fresh child serializer per attribute, else a
leaf Field. -/
def objectDefaultFields (h : Heap) (s : SState) (objOpt : Option Nat)
    (nestedArg : NOpt) : Except Err (List (String × FieldI)) :=
  match objOpt with
  | none => Except.error Err.deserNotSupported
  | some id => do
    let attrs ← heapAttrs h id
    let names := sortNames ((attrs.map Prod.fst).filter
      (fun n => !startsUnderscore n))
    Except.ok (names.map (fun n =>
      (n, if nestedArg.truthy then FieldI.child (freshObjectChild s)
          else FieldI.plain)))

/-- The `default_fields` virtual hook, dispatched on the variant. -/
def defaultFieldsFor (h : Heap) (s : SState) (objOpt : Option Nat)
    (nestedArg : NOpt) : Except Err (List (String × FieldI)) :=
  match s.variantOf with
  | .baseS => Except.ok []
  | .objectS => objectDefaultFields h s objOpt nestedArg

/-- `get_fields(obj, cls, nested)` (lines 120-161) for the serializers
modelled here: re-initialize each declared field with `parent=self`
(the model-field probe of lines 132-139 always lands in the bare `except`
for plain heap objects, so `model_field=None`), merge in the
`default_fields` hook's output under fresh names only, then apply the
allowlist and exclusion policy.  Returns the resolved mapping together
with the updated instance (its declared field instances mutated by
`initialize`). -/
def wGetFields (h : Heap) (s : SState) (objOpt : Option Nat)
    (nestedArg : NOpt) :
    Except Err ((List (String × FieldI)) × SState) := do
  let declared := s.fieldsOf.map (fun kv => (kv.1, reinitField s kv.2))
  let defaults ← defaultFieldsFor h s objOpt nestedArg
  let resolved ← getFieldsCore declared defaults s.allowOf s.exclOf
  Except.ok (resolved, s.withFields declared)

/-- `getattr(field, 'label', None)`: every field reachable in this
development is constructed with `label=None` (`Field()` and
`self.__class__()` pass no label). -/
def fieldLabel : FieldI → Option String := fun _ => none

/-- `convert_field_key(obj, field_name, field)` (lines 198-204): the
field's label when set, else the field name. -/
def convertFieldKey (label : Option String) (name : String) : String :=
  label.getD name

/-- Modelled from the spec: `SortedDictWithMetadata.set_with_metadata`
lives in serializers/utils.py, which is not part of the shown source.
The spec's root-flattening contract says an `is_root` field's mapping
output is merged directly into the parent's mapping instead of nesting
under the field's key; any other entry is appended under its key. -/
def setWithMetadata (key : String) (value : Prim) (f : FieldI)
    (rest : List (String × Prim)) : List (String × Prim) :=
  match f with
  | .child cs =>
    if cs.isRootOf then
      match value with
      | .pmap es => es ++ rest
      | _ => (key, value) :: rest
    else (key, value) :: rest
  | .plain => (key, value) :: rest

/-- The call descriptors of the fuel-indexed walker: `to_native` on a
value, `to_native` mapped over a sequence, `convert_object`,
`BaseSerializer.field_to_native`, the field loop of `convert_object`,
leaf-Field conversion of an extracted attribute, and its flat conversion
of a value and of a sequence. -/
inductive WCall where
  | toNative : PyVal → WCall
  | toNativeSeq : List PyVal → WCall
  | convertObject : Nat → WCall
  | fieldToNative : Nat → String → WCall
  | convertLoop : Nat → List (String × FieldI) → WCall
  | plainFieldToNative : Nat → String → WCall
  | flatValue : PyVal → WCall
  | flatValueSeq : List PyVal → WCall

/-- The graph walker of serializer.py as one fuel-indexed evaluator over
an instance state and a call descriptor.  Branch by branch:

* `toNative` is `BaseSerializer.to_native` (lines 244-257): protected
  scalars pass through, lists map recursively (the generator is consumed
  to a list), composite references delegate to `convert_object`.
* `convertObject` is `determine_recursion` plus `convert_object`
  (lines 206-224): an object already on the stack of a non-root
  serializer is converted via the flat fallback — `get_fields` of
  `self.obj` with `nested=False`, then only the single field
  `self.field_name` is converted; otherwise the identity is pushed and
  the full field loop runs.
* `fieldToNative` is `BaseSerializer.field_to_native` (lines 178-184):
  record `self.obj`/`self.field_name`; `is_root` bypasses extraction and
  converts the container itself; otherwise the named attribute is
  extracted and converted (the `super()` leaf contract, modelled from the
  spec since fields.py is not part of the shown source).
* `convertLoop` is the loop of lines 220-223, combining entries through
  `setWithMetadata`.
* `plainFieldToNative`/`flatValue`/`flatValueSeq` are the leaf `Field`
  conversion, modelled from the spec: extract the named attribute and
  return its flat, non-recursive representation. -/
def wEval (h : Heap) : Nat → SState → WCall → Except Err (Prim × SState)
  | 0, _, _ => Except.error Err.outOfFuel
  | fuel + 1, s, c =>
    match c with
    | .toNative v =>
      match v with
      | .vnone => Except.ok (.pnone, s)
      | .vint n => Except.ok (.pint n, s)
      | .vstr t => Except.ok (.pstr t, s)
      | .vlist xs => wEval h fuel s (.toNativeSeq xs)
      | .ref id => wEval h fuel s (.convertObject id)
    | .toNativeSeq xs =>
      match xs with
      | [] => Except.ok (.plist [], s)
      | x :: rest => do
        let (p, s1) ← wEval h fuel s (.toNative x)
        let (pr, s2) ← wEval h fuel s1 (.toNativeSeq rest)
        match pr with
        | .plist ps => Except.ok (.plist (p :: ps), s2)
        | _ => Except.error Err.shapeError
    | .convertObject id =>
      if s.stackOf.contains id && !s.isRootOf then
        match s.curObjOf, s.fieldNameOf with
        | some cid, some fname => do
          let (flds, s1) ← wGetFields h s (some cid) (.nbool false)
          match List.lookup fname flds with
          | none => Except.error (Err.keyMissing fname)
          | some f =>
            match f with
            | .plain => do
              let (p, _) ← wEval h fuel s1 (.plainFieldToNative cid fname)
              Except.ok (p, s1)
            | .child cs => do
              let (p, _) ← wEval h fuel cs (.fieldToNative cid fname)
              Except.ok (p, s1)
        | _, _ => Except.error (Err.attrMissing "obj")
      else
        let s1 := s.pushStack id
        do
          let (flds, s2) ← wGetFields h s1 (some id) s1.nestedOf
          let (pm, s3) ← wEval h fuel s2 (.convertLoop id flds)
          Except.ok (pm, s3)
    | .fieldToNative objId name =>
      let s1 := s.withContext (some objId) (some name)
      if s.isRootOf then wEval h fuel s1 (.toNative (.ref objId))
      else do
        let v ← getattrE h objId name
        wEval h fuel s1 (.toNative v)
    | .convertLoop id flds =>
      match flds with
      | [] => Except.ok (.pmap [], s)
      | (name, f) :: rest => do
        let key := convertFieldKey (fieldLabel f) name
        let (value, _) ←
          match f with
          | .plain => wEval h fuel s (.plainFieldToNative id name)
          | .child cs => wEval h fuel cs (.fieldToNative id name)
        let (pr, s2) ← wEval h fuel s (.convertLoop id rest)
        match pr with
        | .pmap es => Except.ok (.pmap (setWithMetadata key value f es), s2)
        | _ => Except.error Err.shapeError
    | .plainFieldToNative objId name => do
      let v ← getattrE h objId name
      wEval h fuel s (.flatValue v)
    | .flatValue v =>
      match v with
      | .vnone => Except.ok (.pnone, s)
      | .vint n => Except.ok (.pint n, s)
      | .vstr t => Except.ok (.pstr t, s)
      | .ref id => Except.ok (.flatRef id, s)
      | .vlist xs => wEval h fuel s (.flatValueSeq xs)
    | .flatValueSeq xs =>
      match xs with
      | [] => Except.ok (.plist [], s)
      | x :: rest => do
        let (p, s1) ← wEval h fuel s (.flatValue x)
        let (pr, s2) ← wEval h fuel s1 (.flatValueSeq rest)
        match pr with
        | .plist ps => Except.ok (.plist (p :: ps), s2)
        | _ => Except.error Err.shapeError

/-- `to_native(obj)` on a serializer instance, with fuel. -/
def to_native (h : Heap) (fuel : Nat) (s : SState) (v : PyVal) :
    Except Err (Prim × SState) :=
  wEval h fuel s (.toNative v)

/-- `convert_object(obj)` on a serializer instance, with fuel. -/
def convert_object (h : Heap) (fuel : Nat) (s : SState) (id : Nat) :
    Except Err (Prim × SState) :=
  wEval h fuel s (.convertObject id)

/-- `field_to_native(obj, field_name)` on a serializer instance used as a
field, with fuel. -/
def field_to_native (h : Heap) (fuel : Nat) (s : SState) (objId : Nat)
    (name : String) : Except Err (Prim × SState) :=
  wEval h fuel s (.fieldToNative objId name)

/-- The serialize-time keyword overrides routed by `serialize`
(lines 293-305): `fields`, `exclude` and `nested`, each present or not. -/
structure SOverrides where
  fields : Option (List String)
  exclude : Option (List String)
  nested : Option NOpt

/-- `hasattr(field, 'opts') and getattr(field.opts, 'is_root', None)`
(line 296): leaf Fields have no `opts` attribute. -/
def isRootField : FieldI → Bool
  | .child cs => cs.isRootOf
  | .plain => false

/-- Apply the present overrides to a serializer's options
(`setattr(target.opts, keyword, opts.pop(keyword))`). -/
def applyOverrides (cs : SState) (ov : SOverrides) : SState :=
  match cs with
  | .mk v n r a e st o fn fs =>
    .mk v (ov.nested.getD n) r (ov.fields.getD a) (ov.exclude.getD e) st o fn fs

/-- The root-field routing loop of `serialize` (lines 294-300): each
keyword is popped from the option dict when first consumed, so the first
`is_root` field in declaration order receives all present overrides and
later fields receive none. -/
def routeToFirstRoot (flds : List (String × FieldI)) (ov : SOverrides) :
    List (String × FieldI) :=
  match flds with
  | [] => []
  | (n, f) :: rest =>
    if isRootField f then
      match f with
      | .child cs => (n, FieldI.child (applyOverrides cs ov)) :: rest
      | .plain => (n, f) :: rest
    else (n, f) :: routeToFirstRoot rest ov

/-- The override routing of `serialize` (lines 293-305): when some
declared field is an `is_root` serializer, the `fields`/`exclude`/`nested`
overrides go to that field's options; otherwise they apply to this
instance's own options. -/
def routeOverrides (s : SState) (ov : SOverrides) : SState :=
  if s.fieldsOf.any (fun kv => isRootField kv.2) then
    s.withFields (routeToFirstRoot s.fieldsOf ov)
  else applyOverrides s ov

/-- `serialize('python', obj, **opts)` (lines 286-317) for the
pass-through python format: reset the cycle stack, route the overrides,
and run `to_native`. -/
def serialize_python (h : Heap) (fuel : Nat) (s : SState) (ov : SOverrides)
    (obj : PyVal) : Except Err (Prim × SState) :=
  let s0 := s.withStack []
  let s1 := routeOverrides s0 ov
  wEval h fuel s1 (.toNative obj)

/-! Concrete scenarios used by the claims. -/

/-- Cyclic heap: object X (identity 0) references Y (identity 1) through
attribute `y`, and Y references X back through attribute `x`. -/
def cycleHeap : Heap := [(0, [("y", .ref 1)]), (1, [("x", .ref 0)])]

/-- A top-level ObjectSerializer with unlimited nesting and `is_root`
unset, about to serialize X. -/
def cycleSer : SState := .mk .objectS (.nbool true) false [] [] [] none none []

/-- The nested serializer state at the moment the cycle closes: the child
serializer converting Y's attribute `x`, its stack holding X and Y, its
`self.obj`/`self.field_name` scratch set to Y and `x`. -/
def cycleInner : SState :=
  .mk .objectS (.nbool true) false [] [] [0, 1] (some 1) (some "x") []

/-- Acyclic chain heap: A (0) → B (1) → C (2) → D (3), D carrying a scalar. -/
def chainHeap : Heap :=
  [(0, [("b", .ref 1)]), (1, [("c", .ref 2)]), (2, [("d", .ref 3)]),
   (3, [("x", .vint 42)])]

/-- A top-level ObjectSerializer with a nesting budget of 2. -/
def chainSer : SState := .mk .objectS (.nint 2) false [] [] [] none none []

/-- Heap with A (0) holding a list attribute `xs` that repeats the same
object X (1) twice as sibling elements. -/
def sibHeap : Heap :=
  [(0, [("xs", .vlist [.ref 1, .ref 1])]), (1, [("v", .vint 42)])]

/-- A top-level ObjectSerializer with unlimited nesting for the repeated
sibling scenario. -/
def sibSer : SState := .mk .objectS (.nbool true) false [] [] [] none none []

/-- The nested serializer state converting A's list attribute `xs` at the
moment the repeated sibling X is reached a second time: X (1) is already
on the stack from the first element's conversion, though it is not an
ancestor of the current traversal position. -/
def sibInner : SState :=
  .mk .objectS (.nbool true) false [] [] [0, 1] (some 0) (some "xs") []

/-- An ObjectSerializer declared with `is_root=True`, used as a field. -/
def rootChild : SState := .mk .objectS (.nbool false) true [] [] [] none none []

/-- `rootChild` as it stands after `initialize(parent=...)` during the
enclosing serializer's `get_fields` for object 0: stack copied. -/
def rootChildInit : SState :=
  .mk .objectS (.nbool false) true [] [] [0] none none []

/-- A plain Serializer (empty default fields) whose single declared field
`data` is the `is_root` child. -/
def rootHost : SState :=
  .mk .baseS (.nbool false) false [] [] [] none none [("data", .child rootChild)]

/-- Heap for the root-flattening scenario: one object with two scalar
attributes. -/
def rootHeap : Heap := [(0, [("a", .vint 1), ("b", .vstr "s")])]

/-- Heap whose object's instance dictionary lists attributes in the
insertion order `b`, `a`, `_p` — not alphabetical, and one private. -/
def ordHeap : Heap := [(0, [("b", .vint 2), ("a", .vint 1), ("_p", .vint 9)])]

/-- An ObjectSerializer with flat defaults for the ordering scenario. -/
def ordSer : SState := .mk .objectS (.nbool false) false [] [] [] none none []

/-- Construction kwargs passing only a `fields` override. -/
def kwWithFields : KwOpts := ⟨none, some ["x"], none, none, none, none⟩

/-- Base class resolved field set: fields A, B, C with creation counters
1, 2, 3. -/
def baseABC : List (String × DField) :=
  [("A", ⟨1, 10⟩), ("B", ⟨2, 11⟩), ("C", ⟨3, 12⟩)]

/-- Subclass attribute dict: adds D (counter 5) and overrides B (counter
4); the dict iteration order is arbitrary, here D before B. -/
def subDB : List (String × DField) := [("D", ⟨5, 20⟩), ("B", ⟨4, 21⟩)]

/-! Helper lemmas about association lists as Django dicts. -/

theorem sd_lookup_append_left {κ α : Type} [BEq κ] (k : κ)
    (l₁ l₂ : List (κ × α)) (v : α) (hv : List.lookup k l₁ = some v) :
    List.lookup k (l₁ ++ l₂) = some v := by
  induction l₁ with
  | nil => simp [List.lookup] at hv
  | cons a rest ih =>
    simp only [List.lookup, List.cons_append] at hv ⊢
    cases hbeq : k == a.1 with
    | true => simpa [hbeq] using hv
    | false =>
      simp only [hbeq] at hv ⊢
      exact ih hv

theorem sd_lookup_append_right {κ α : Type} [BEq κ] (k : κ)
    (l₁ l₂ : List (κ × α)) (hv : List.lookup k l₁ = none) :
    List.lookup k (l₁ ++ l₂) = List.lookup k l₂ := by
  induction l₁ with
  | nil => simp
  | cons a rest ih =>
    simp only [List.lookup, List.cons_append] at hv ⊢
    cases hbeq : k == a.1 with
    | true => simp [hbeq] at hv
    | false =>
      simp only [hbeq] at hv ⊢
      exact ih hv

theorem sd_lookup_mem {κ α : Type} [BEq κ] [LawfulBEq κ] (k : κ)
    (l : List (κ × α)) (hk : k ∈ l.map Prod.fst) :
    ∃ v, List.lookup k l = some v := by
  induction l with
  | nil => simp at hk
  | cons a rest ih =>
    simp only [List.map_cons, List.mem_cons] at hk
    cases hk with
    | inl h => exact ⟨a.2, by simp [List.lookup, h]⟩
    | inr h =>
      by_cases he : k = a.1
      · exact ⟨a.2, by simp [List.lookup, he]⟩
      · obtain ⟨v, hv⟩ := ih h
        have hb : (k == a.1) = false := beq_eq_false_iff_ne.mpr he
        exact ⟨v, by simp [List.lookup, hb, hv]⟩

theorem sd_lookup_none {κ α : Type} [BEq κ] [LawfulBEq κ] (k : κ)
    (l : List (κ × α)) (hk : k ∉ l.map Prod.fst) :
    List.lookup k l = none := by
  induction l with
  | nil => rfl
  | cons a rest ih =>
    simp only [List.map_cons, List.mem_cons, not_or] at hk
    have hb : (k == a.1) = false := beq_eq_false_iff_ne.mpr hk.1
    simp [List.lookup, hb, ih hk.2]

theorem sd_contains_false {κ : Type} [BEq κ] [LawfulBEq κ] (l : List κ)
    (a : κ) : (l.contains a = false) ↔ a ∉ l := by
  induction l with
  | nil => simp
  | cons x xs ih =>
    by_cases hx : a = x
    · simp [List.contains, List.elem, hx]
    · have hb : (a == x) = false := beq_eq_false_iff_ne.mpr hx
      simp only [List.contains, List.elem, hb] at ih ⊢
      simp [hx, ih]

theorem sd_keys_filter {α : Type} (p : String → Bool)
    (l : List (String × α)) :
    (l.filter (fun kv => p kv.1)).map Prod.fst = (l.map Prod.fst).filter p := by
  induction l with
  | nil => rfl
  | cons a rest ih =>
    by_cases hp : p a.1 <;> simp [List.filter, hp, ih]

/-! Claim theorems. -/

/-- C3 counterexample: the claim says the child's `nested` is copied
unchanged whenever the parent's `nested` is not a positive non-boolean
integer.  For the non-positive integer `-1` the code's truthiness test
fires (`-1` is truthy and not a bool), so `initialize` decrements it to
`-2` instead of copying it. -/
theorem claim_C3_counterexample :
    claimPositiveInt (NOpt.nint (-1)) = false ∧
    initNestedOpt (NOpt.nint (-1)) = NOpt.nint (-2) ∧
    initNestedOpt (NOpt.nint (-1)) ≠ NOpt.nint (-1) := by
  decide

/-- C3 amended: when a Serializer field is initialized as a child of a
parent Serializer, the child's `nested` option becomes `parent.nested - 1`
if the parent's `nested` is a nonzero non-boolean integer, and otherwise
is copied unchanged (booleans and the integer 0 are copied); consequently,
with `nested = 2` the relation chain A→B→C→D serializes B and C fully as
nested mappings and represents D as a flat, non-nested value. -/
theorem claim_C3_nested_propagation :
    (∀ parent : NOpt, initNestedOpt parent =
      match parent with
      | NOpt.nint n => if n = 0 then NOpt.nint n else NOpt.nint (n - 1)
      | NOpt.nbool b => NOpt.nbool b) ∧
    to_native chainHeap 20 chainSer (.ref 0) =
      Except.ok (.pmap [("b", .pmap [("c", .pmap [("d", .flatRef 3)])])],
        SState.mk .objectS (.nint 2) false [] [] [0] none none []) := by
  constructor
  · intro parent
    cases parent with
    | nint n =>
      by_cases h : n = 0 <;>
        simp [initNestedOpt, NOpt.truthy, NOpt.isBoolVal, h]
    | nbool b => cases b <;> rfl
  · rfl

/-- C4 counterexample: the claim says every option checks the
construction-time keyword override first.  Passing `fields=("x",)` as a
keyword with an empty Meta block yields resolved `fields = ()` — the code
reads `fields` (and `exclude`, `nested` and the registries) from Meta
only, so the keyword override is ignored. -/
theorem claim_C4_counterexample :
    serializerOptionsInit emptyMeta kwWithFields ≠
      claimOptionsInit emptyMeta kwWithFields ∧
    (serializerOptionsInit emptyMeta kwWithFields).fields = [] ∧
    (claimOptionsInit emptyMeta kwWithFields).fields = ["x"] := by
  decide

/-- C4 amended: only `is_root` resolves through keyword-override → Meta →
default; `fields`, `exclude`, `nested` and the renderer/parser registries
resolve Meta → default and ignore construction-time keywords; absence of
every source yields the hard-coded defaults, and resolution is a total
function (never raises). -/
theorem claim_C4_options_resolution (m : MetaOpts) (k : KwOpts) (b : Bool)
    (hk : k.is_root = some b) :
    ((serializerOptionsInit m k).nested = (serializerOptionsInit m emptyKw).nested ∧
     (serializerOptionsInit m k).fields = (serializerOptionsInit m emptyKw).fields ∧
     (serializerOptionsInit m k).exclude = (serializerOptionsInit m emptyKw).exclude ∧
     (serializerOptionsInit m k).renderer_classes =
       (serializerOptionsInit m emptyKw).renderer_classes ∧
     (serializerOptionsInit m k).parser_classes =
       (serializerOptionsInit m emptyKw).parser_classes) ∧
    (serializerOptionsInit m k).is_root = b ∧
    (∀ m' : MetaOpts, ∀ k' : KwOpts, k'.is_root = none →
      (serializerOptionsInit m' k').is_root = m'.is_root.getD false) ∧
    serializerOptionsInit emptyMeta emptyKw =
      ⟨.nbool false, [], [], false, defaultRenderers, defaultParsers⟩ := by
  refine ⟨⟨rfl, rfl, rfl, rfl, rfl⟩, ?_, ?_, rfl⟩
  · simp [serializerOptionsInit, get_option, hk]
  · intro m' k' hk'
    simp [serializerOptionsInit, get_option, hk']

/-- C4 witness: instantiates the amended option-resolution theorem at a
Meta block declaring `is_root=False` and kwargs passing `is_root=True`. -/
theorem claim_C4_witness :
    (serializerOptionsInit ⟨none, none, none, some false, none, none⟩
      ⟨none, some ["z"], none, some true, none, none⟩).is_root = true ∧
    serializerOptionsInit emptyMeta emptyKw =
      ⟨.nbool false, [], [], false, defaultRenderers, defaultParsers⟩ := by
  have h := claim_C4_options_resolution
    ⟨none, none, none, some false, none, none⟩
    ⟨none, some ["z"], none, some true, none, none⟩ true rfl
  exact ⟨h.2.1, h.2.2.2⟩

/-- `lexLe` is total. -/
theorem lexLe_total : ∀ as bs : List Char, lexLe as bs = true ∨ lexLe bs as = true := by
  intro as
  induction as with
  | nil => intro bs; left; rfl
  | cons a as ih =>
    intro bs
    cases bs with
    | nil => right; rfl
    | cons b bs =>
      simp only [lexLe]
      rcases Nat.lt_trichotomy a.toNat b.toNat with h | h | h
      · left; simp [h]
      · rcases ih bs with h2 | h2
        · left; simp [h, h2]
        · right; simp [h.symm, h2, Nat.lt_irrefl]
      · right; simp [h, Nat.lt_irrefl, Nat.lt_asymm h, (Nat.ne_of_lt h).symm]

/-- `lexLe` is transitive. -/
theorem lexLe_trans : ∀ as bs cs : List Char,
    lexLe as bs = true → lexLe bs cs = true → lexLe as cs = true := by
  intro as
  induction as with
  | nil => intro bs cs _ _; rfl
  | cons a as ih =>
    intro bs cs hab hbc
    cases bs with
    | nil => simp [lexLe] at hab
    | cons b bs =>
      cases cs with
      | nil => simp [lexLe] at hbc
      | cons c cs =>
        simp only [lexLe] at hab hbc ⊢
        by_cases h1 : a.toNat < b.toNat
        · by_cases h2 : b.toNat < c.toNat
          · simp [Nat.lt_trans h1 h2]
          · simp [h2] at hbc
            by_cases h3 : b.toNat = c.toNat
            · simp [h3] at h1; simp [h1]
            · simp [h3] at hbc
        · simp [h1] at hab
          by_cases h3 : a.toNat = b.toNat
          · simp only [h3, and_iff_right] at hab
            have hab2 : lexLe as bs = true := hab
            by_cases h2 : b.toNat < c.toNat
            · have : a.toNat < c.toNat := h3 ▸ h2
              simp [this]
            · simp [h2] at hbc
              by_cases h4 : b.toNat = c.toNat
              · have hac : a.toNat = c.toNat := h3.trans h4
                simp [h4] at hbc
                simp [hac, Nat.lt_irrefl, ih _ _ hab2 hbc]
              · simp [h4] at hbc
          · simp [h3] at hab

/-- C10: ObjectSerializer's default field set contains exactly one field
per non-underscore instance-dictionary attribute, and the fields are
ordered alphabetically (lexicographically) by attribute name — the name
list is the sorted permutation of the filtered attribute names, not the
instance-dictionary insertion order; the `ordHeap` example stores
attributes in order `b`, `a`, `_p` and resolves to fields `a`, `b`. -/
theorem claim_C10_default_fields_sorted
    (h : Heap) (s : SState) (oid : Nat) (na : NOpt)
    (attrs : List (String × PyVal)) (hh : List.lookup oid h = some attrs) :
    (∃ l, objectDefaultFields h s (some oid) na = Except.ok l ∧
      l.map Prod.fst =
        sortNames ((attrs.map Prod.fst).filter (fun n => !startsUnderscore n)) ∧
      (l.map Prod.fst).Sorted strRel ∧
      (l.map Prod.fst).Perm
        ((attrs.map Prod.fst).filter (fun n => !startsUnderscore n)) ∧
      l.length =
        ((attrs.map Prod.fst).filter (fun n => !startsUnderscore n)).length) ∧
    objectDefaultFields ordHeap ordSer (some 0) (.nbool false) =
      Except.ok [("a", FieldI.plain), ("b", FieldI.plain)] ∧
    (List.lookup 0 ordHeap).map (List.map Prod.fst) = some ["b", "a", "_p"] := by
  have htot : IsTotal String strRel := ⟨fun a b => lexLe_total a.data b.data⟩
  have htr : IsTrans String strRel := ⟨fun a b c => lexLe_trans a.data b.data c.data⟩
  refine ⟨?_, by rfl, by rfl⟩
  have hkeys : ∀ (L : List String) (f : FieldI),
      (L.map (fun n => (n, f))).map Prod.fst = L := by
    intro L f
    simp [List.map_map, Function.comp_def]
  refine ⟨(sortNames ((attrs.map Prod.fst).filter
    (fun n => !startsUnderscore n))).map
      (fun n => (n, if na.truthy then FieldI.child (freshObjectChild s)
        else FieldI.plain)), ?_, ?_, ?_, ?_, ?_⟩
  · simp only [objectDefaultFields, heapAttrs, hh]
    rfl
  · rw [hkeys]
  · rw [hkeys]
    exact @List.sorted_insertionSort String strRel _ htot htr _
  · rw [hkeys]
    exact List.perm_insertionSort strRel _
  · rw [List.length_map]
    exact (List.perm_insertionSort strRel _).length_eq

/-- C10 witness: instantiates the default-field theorem at `ordHeap`. -/
theorem claim_C10_witness :
    ∃ l, objectDefaultFields ordHeap ordSer (some 0) (.nbool false) =
        Except.ok l ∧
      l.map Prod.fst = sortNames ((([("b", PyVal.vint 2), ("a", PyVal.vint 1),
        ("_p", PyVal.vint 9)]).map Prod.fst).filter
          (fun n => !startsUnderscore n)) ∧
      (l.map Prod.fst).Sorted strRel ∧
      (l.map Prod.fst).Perm (((([("b", PyVal.vint 2), ("a", PyVal.vint 1),
        ("_p", PyVal.vint 9)]).map Prod.fst)).filter
          (fun n => !startsUnderscore n)) ∧
      l.length = (((([("b", PyVal.vint 2), ("a", PyVal.vint 1),
        ("_p", PyVal.vint 9)]).map Prod.fst)).filter
          (fun n => !startsUnderscore n)).length :=
  (claim_C10_default_fields_sorted ordHeap ordSer 0 (.nbool false)
    [("b", .vint 2), ("a", .vint 1), ("_p", .vint 9)] (by rfl)).1

/-- C7: in `get_fields`, a default field is added to the merged mapping
only under a name not already bound by an explicitly declared field; for
every name present in both the declared and default sets the bound
instance is the declared one, and with no allowlist and no exclusions
`get_fields` returns exactly the merged mapping. -/
theorem claim_C7_declared_wins (α : Type)
    (declared defaults : List (String × α)) :
    getFieldsCore declared defaults [] [] =
      Except.ok (mergeDeclaredDefaults declared defaults) ∧
    (mergeDeclaredDefaults declared defaults).map Prod.fst =
      declared.map Prod.fst ++
        (defaults.map Prod.fst).filter
          (fun k => !(declared.map Prod.fst).contains k) ∧
    ∀ k, k ∈ declared.map Prod.fst →
      List.lookup k (mergeDeclaredDefaults declared defaults) =
        List.lookup k declared := by
  refine ⟨?_, ?_, ?_⟩
  · simp only [getFieldsCore, applyAllowlist, List.isEmpty_nil, if_pos rfl]
    show Except.ok (applyExclusions (mergeDeclaredDefaults declared defaults) []) = _
    simp [applyExclusions]
  · rw [mergeDeclaredDefaults, List.map_append,
      sd_keys_filter (fun k => !(declared.map Prod.fst).contains k)]
  · intro k hk
    obtain ⟨v, hv⟩ := sd_lookup_mem k declared hk
    rw [hv]
    exact sd_lookup_append_left k declared _ v hv

/-- C7 witness: declared fields a, b and default fields b, c — the merged
mapping binds b to the declared instance and appends only c. -/
theorem claim_C7_witness :
    List.lookup "b" (mergeDeclaredDefaults [("a", 1), ("b", 2)]
      [("b", 9), ("c", 3)]) = List.lookup "b" [("a", 1), ("b", 2)] ∧
    getFieldsCore [("a", 1), ("b", 2)] [("b", 9), ("c", 3)] [] [] =
      Except.ok (mergeDeclaredDefaults [("a", 1), ("b", 2)] [("b", 9), ("c", 3)]) :=
  ⟨(claim_C7_declared_wins Nat [("a", 1), ("b", 2)] [("b", 9), ("c", 3)]).2.2
      "b" (by decide),
   (claim_C7_declared_wins Nat [("a", 1), ("b", 2)] [("b", 9), ("c", 3)]).1⟩

/-- The allowlist fold of `get_fields` succeeds when every allowlisted
name is bound in the merged mapping, and the rebuilt mapping's keys are
exactly the allowlist in its given order. -/
theorem allow_fold_ok {α : Type} (m : List (String × α)) :
    ∀ (allow : List String) (acc : List (String × α)),
    allow.Nodup → (∀ k ∈ allow, k ∈ m.map Prod.fst) →
    (∀ k ∈ allow, (acc.map Prod.fst).contains k = false) →
    ∃ l, List.foldlM (fun acc k =>
        match List.lookup k m with
        | some v => Except.ok (sdInsert acc k v)
        | none => Except.error (Err.keyMissing k)) acc allow = Except.ok l ∧
      l.map Prod.fst = acc.map Prod.fst ++ allow := by
  intro allow
  induction allow with
  | nil => exact fun acc _ _ _ => ⟨acc, rfl, by simp⟩
  | cons k rest ih =>
    intro acc hnd hall hacc
    obtain ⟨v, hv⟩ := sd_lookup_mem k m (hall k (by simp))
    have hknotacc : (acc.map Prod.fst).contains k = false := hacc k (by simp)
    have hins : sdInsert acc k v = acc ++ [(k, v)] := by
      rw [sdInsert, if_neg]
      intro hc
      rw [hknotacc] at hc
      exact Bool.false_ne_true hc
    have hknotrest : k ∉ rest := (List.nodup_cons.mp hnd).1
    have hacc' : ∀ k' ∈ rest,
        (((acc ++ [(k, v)]).map Prod.fst)).contains k' = false := by
      intro k' hk'
      have h1 : (acc.map Prod.fst).contains k' = false := hacc k' (by simp [hk'])
      have h2 : k' ≠ k := fun he => hknotrest (he ▸ hk')
      have h1' : k' ∉ acc.map Prod.fst := (sd_contains_false _ _).mp h1
      refine (sd_contains_false _ _).mpr ?_
      simp [List.map_append, List.mem_append, h1', h2]
    obtain ⟨l, hl, hkeys⟩ := ih (acc ++ [(k, v)]) (List.nodup_cons.mp hnd).2
      (fun k' h => hall k' (by simp [h])) hacc'
    refine ⟨l, ?_, ?_⟩
    · rw [List.foldlM_cons, hv]
      simpa [hins] using hl
    · rw [hkeys]
      simp [List.map_append]

/-- C5: with a non-empty allowlist whose names are all bound in the merged
mapping, `get_fields` returns exactly the allowlisted names in the
allowlist's given order, regardless of what the declared and default
mappings hold, and afterwards every excluded name is removed (silently
no-opping for absent names) preserving the relative order of the rest:
the final key list is the allowlist filtered by the exclusion list. -/
theorem claim_C5_allowlist_exclusions (α : Type)
    (declared defaults : List (String × α)) (allow excl : List String)
    (hne : allow ≠ []) (hnd : allow.Nodup)
    (hall : ∀ k ∈ allow,
      k ∈ (mergeDeclaredDefaults declared defaults).map Prod.fst) :
    ∃ l, getFieldsCore declared defaults allow excl = Except.ok l ∧
      l.map Prod.fst = allow.filter (fun k => !excl.contains k) := by
  obtain ⟨l, hl, hkeys⟩ := allow_fold_ok (mergeDeclaredDefaults declared defaults)
    allow [] hnd hall (fun k _ => rfl)
  have hemp : allow.isEmpty = false := by
    cases allow with
    | nil => exact absurd rfl hne
    | cons a rest => rfl
  refine ⟨applyExclusions l excl, ?_, ?_⟩
  · simp only [getFieldsCore, applyAllowlist, hemp, Bool.false_eq_true,
      if_false, hl]
    rfl
  · rw [applyExclusions, sd_keys_filter (fun k => !excl.contains k), hkeys]
    simp

/-- C5 witness: a merged mapping of five fields with allowlist
`("id", "name")` and exclusion `("secret",)` resolves to exactly the keys
`id`, `name` in that order. -/
theorem claim_C5_witness :
    ∃ l, getFieldsCore ([] : List (String × Nat))
        [("a", 1), ("id", 2), ("name", 3), ("secret", 4), ("z", 5)]
        ["id", "name"] ["secret"] = Except.ok l ∧
      l.map Prod.fst = (["id", "name"].filter
        (fun k => !(["secret"] : List String).contains k)) :=
  claim_C5_allowlist_exclusions Nat []
    [("a", 1), ("id", 2), ("name", 3), ("secret", 4), ("z", 5)]
    ["id", "name"] ["secret"] (by decide) (by decide) (by decide)

/-- The allowlist fold of `get_fields` fails with a KeyError when some
allowlisted name is missing from the merged mapping. -/
theorem allow_fold_err {α : Type} (m : List (String × α)) :
    ∀ (allow : List String) (acc : List (String × α)),
    (∃ k, k ∈ allow ∧ k ∉ m.map Prod.fst) →
    ∃ k, k ∈ allow ∧ k ∉ m.map Prod.fst ∧
      List.foldlM (fun acc k =>
        match List.lookup k m with
        | some v => Except.ok (sdInsert acc k v)
        | none => Except.error (Err.keyMissing k)) acc allow =
        Except.error (Err.keyMissing k) := by
  intro allow
  induction allow with
  | nil =>
    rintro acc ⟨k, hk, _⟩
    simp at hk
  | cons k rest ih =>
    intro acc hex
    by_cases hk : k ∈ m.map Prod.fst
    · obtain ⟨v, hv⟩ := sd_lookup_mem k m hk
      have hex' : ∃ k', k' ∈ rest ∧ k' ∉ m.map Prod.fst := by
        obtain ⟨k0, hk0, hm0⟩ := hex
        cases List.mem_cons.mp hk0 with
        | inl he => exact absurd (he ▸ hk) hm0
        | inr hr => exact ⟨k0, hr, hm0⟩
      obtain ⟨k', hk', hm', hrec⟩ := ih (sdInsert acc k v) hex'
      refine ⟨k', List.mem_cons_of_mem k hk', hm', ?_⟩
      rw [List.foldlM_cons, hv]
      simpa using hrec
    · refine ⟨k, List.mem_cons_self k rest, hk, ?_⟩
      rw [List.foldlM_cons, sd_lookup_none k m hk]
      rfl

/-- C6: if the allowlist contains a name absent from the merged mapping of
declared and default fields, `get_fields` fails fast with the KeyError
configuration fault (`Err.keyMissing`, a distinct error from the
data-shape faults) instead of skipping or tolerating the name. -/
theorem claim_C6_missing_allowlist_faults (α : Type)
    (declared defaults : List (String × α)) (allow excl : List String)
    (k₀ : String) (hk₀ : k₀ ∈ allow)
    (hmiss : k₀ ∉ (mergeDeclaredDefaults declared defaults).map Prod.fst) :
    ∃ k, k ∈ allow ∧
      k ∉ (mergeDeclaredDefaults declared defaults).map Prod.fst ∧
      getFieldsCore declared defaults allow excl =
        Except.error (Err.keyMissing k) := by
  obtain ⟨k, hk, hm, hfold⟩ := allow_fold_err
    (mergeDeclaredDefaults declared defaults) allow [] ⟨k₀, hk₀, hmiss⟩
  have hemp : allow.isEmpty = false := by
    cases allow with
    | nil => simp at hk₀
    | cons a rest => rfl
  refine ⟨k, hk, hm, ?_⟩
  simp only [getFieldsCore, applyAllowlist, hemp, Bool.false_eq_true, if_false,
    hfold]
  rfl

/-- C6 witness: allowlist `("id", "ghost")` over a merged mapping binding
only `id` and `name` errors with the KeyError for `ghost`. -/
theorem claim_C6_witness :
    ∃ k, k ∈ ["id", "ghost"] ∧
      k ∉ (mergeDeclaredDefaults [("id", 1)] [("name", 2)]).map Prod.fst ∧
      getFieldsCore [("id", 1)] [("name", 2)] ["id", "ghost"] [] =
        Except.error (Err.keyMissing k) :=
  claim_C6_missing_allowlist_faults Nat [("id", 1)] [("name", 2)]
    ["id", "ghost"] [] "ghost" (by decide) (by decide)

/-! Lemmas about Django SortedDict construction from a pair list. -/

theorem contains_cons_eq {κ : Type} [BEq κ] (a x : κ) (l : List κ) :
    (a :: l).contains x = (x == a || l.contains x) := rfl

theorem dedup_subset : ∀ (seen ks : List String) (k : String),
    k ∈ dedupKeysGo seen ks → k ∈ ks := by
  intro seen ks
  induction ks generalizing seen with
  | nil => intro k hk; simp [dedupKeysGo] at hk
  | cons a rest ih =>
    intro k hk
    by_cases hc : seen.contains a = true
    · simp only [dedupKeysGo, hc, if_pos] at hk
      exact List.mem_cons_of_mem a (ih seen k hk)
    · simp only [dedupKeysGo, hc, Bool.false_eq_true, if_false,
        List.mem_cons] at hk
      cases hk with
      | inl he => exact he ▸ List.mem_cons_self k rest
      | inr hr => exact List.mem_cons_of_mem a (ih (a :: seen) k hr)

theorem dedup_nodup_eq : ∀ (ks seen : List String), ks.Nodup →
    dedupKeysGo seen ks = ks.filter (fun k => !seen.contains k) := by
  intro ks
  induction ks with
  | nil => intro seen _; rfl
  | cons a rest ih =>
    intro seen hnd
    have hna : a ∉ rest := (List.nodup_cons.mp hnd).1
    have hnr : rest.Nodup := (List.nodup_cons.mp hnd).2
    by_cases hc : seen.contains a = true
    · simp only [dedupKeysGo]
      rw [if_pos hc, ih seen hnr, List.filter_cons]
      rw [show (!seen.contains a) = false from by rw [hc]; rfl]
      simp only [Bool.false_eq_true, if_false]
    · have hcf : seen.contains a = false := Bool.eq_false_iff.mpr hc
      simp only [dedupKeysGo]
      rw [if_neg hc, ih (a :: seen) hnr, List.filter_cons]
      rw [show (!seen.contains a) = true from by rw [hcf]; rfl]
      simp only [if_pos]
      have hfc : rest.filter (fun k => !(a :: seen).contains k) =
          rest.filter (fun k => !seen.contains k) := by
        refine List.filter_congr ?_
        intro x hx
        have hxa : (x == a) = false :=
          beq_eq_false_iff_ne.mpr (fun he => hna (he ▸ hx))
        rw [contains_cons_eq, hxa, Bool.false_or]
      rw [hfc]

theorem dedup_append_nodup : ∀ (kb : List String) (seen ko : List String),
    kb.Nodup → (∀ k ∈ kb, seen.contains k = false) → ko.Nodup →
    dedupKeysGo seen (kb ++ ko) =
      kb ++ ko.filter (fun k => !(seen.contains k || kb.contains k)) := by
  intro kb
  induction kb with
  | nil =>
    intro seen ko _ _ hko
    rw [List.nil_append, List.nil_append, dedup_nodup_eq ko seen hko]
    have hp : (fun k => !(seen.contains k || ([] : List String).contains k)) =
        (fun k => !seen.contains k) := by
      funext k
      rw [show (([] : List String).contains k) = false from rfl, Bool.or_false]
    rw [hp]
  | cons a kb' ih =>
    intro seen ko hnd hseen hko
    have hna : a ∉ kb' := (List.nodup_cons.mp hnd).1
    have hcf : seen.contains a = false := hseen a (List.mem_cons_self a kb')
    have hni : ¬(seen.contains a = true) := by
      rw [hcf]; exact Bool.false_ne_true
    rw [List.cons_append]
    simp only [dedupKeysGo]
    rw [if_neg hni]
    have hseen' : ∀ k ∈ kb', (a :: seen).contains k = false := by
      intro k hk
      have hka : (k == a) = false :=
        beq_eq_false_iff_ne.mpr (fun he => hna (he ▸ hk))
      rw [contains_cons_eq, hka, Bool.false_or]
      exact hseen k (List.mem_cons_of_mem a hk)
    rw [ih (a :: seen) ko (List.nodup_cons.mp hnd).2 hseen' hko]
    have hfc : ko.filter (fun k => !((a :: seen).contains k || kb'.contains k)) =
        ko.filter (fun k => !(seen.contains k || (a :: kb').contains k)) := by
      have hp : (fun k => !((a :: seen).contains k || kb'.contains k)) =
          (fun k => !(seen.contains k || (a :: kb').contains k)) := by
        funext x
        rw [contains_cons_eq a x seen, contains_cons_eq a x kb']
        cases hxa : x == a <;> cases hs : seen.contains x <;> rfl
      rw [hp]
    rw [hfc, List.cons_append]

theorem filterMap_pairs_keys {α : Type} :
    ∀ (ks : List String) (g : String → Option α),
    (∀ k ∈ ks, ∃ v, g k = some v) →
    (ks.filterMap (fun n => (g n).map (fun v => (n, v)))).map Prod.fst = ks := by
  intro ks g
  induction ks with
  | nil => intro _; rfl
  | cons a rest ih =>
    intro hall
    obtain ⟨v, hv⟩ := hall a (List.mem_cons_self a rest)
    rw [List.filterMap_cons, hv]
    simp only [Option.map_some']
    rw [List.map_cons, ih (fun k hk => hall k (List.mem_cons_of_mem a hk))]

theorem lookup_filterMap_pairs {α : Type} :
    ∀ (ks : List String) (g : String → Option α) (k : String) (v : α),
    k ∈ ks → g k = some v →
    List.lookup k (ks.filterMap (fun n => (g n).map (fun w => (n, w)))) =
      some v := by
  intro ks g
  induction ks with
  | nil => intro k v hk _; simp at hk
  | cons a rest ih =>
    intro k v hk hv
    by_cases hka : k = a
    · subst hka
      rw [List.filterMap_cons, hv]
      simp [List.lookup]
    · have hmem : k ∈ rest := by
        cases List.mem_cons.mp hk with
        | inl he => exact absurd he hka
        | inr hr => exact hr
      rw [List.filterMap_cons]
      cases hga : g a with
      | none => exact ih k v hmem hv
      | some w =>
        simp only [Option.map_some']
        have hb : (k == a) = false := beq_eq_false_iff_ne.mpr hka
        have hstep : List.lookup k ((a, w) ::
            rest.filterMap (fun n => (g n).map (fun w' => (n, w')))) =
            List.lookup k
              (rest.filterMap (fun n => (g n).map (fun w' => (n, w')))) := by
          simp [List.lookup, hb]
        rw [hstep]
        exact ih k v hmem hv

theorem lastBinding_append {α : Type} (l₁ l₂ : List (String × α)) (k : String) :
    lastBinding (l₁ ++ l₂) k =
      match lastBinding l₂ k with
      | some v => some v
      | none => lastBinding l₁ k := by
  rw [lastBinding, List.reverse_append]
  cases hc : lastBinding l₂ k with
  | some v => exact sd_lookup_append_left k _ _ v hc
  | none => exact sd_lookup_append_right k _ _ hc

theorem lastBinding_eq_lookup {α : Type} :
    ∀ (l : List (String × α)), (l.map Prod.fst).Nodup →
    ∀ k, lastBinding l k = List.lookup k l := by
  intro l
  induction l with
  | nil => intro _ k; rfl
  | cons a rest ih =>
    intro hnd k
    have hna : a.1 ∉ rest.map Prod.fst := (List.nodup_cons.mp hnd).1
    have ihr := ih (List.nodup_cons.mp hnd).2
    rw [show ((a :: rest) : List (String × α)) = [a] ++ rest from rfl,
      lastBinding_append]
    by_cases hka : k = a.1
    · subst hka
      have hnone : lastBinding rest a.1 = none := by
        rw [ihr a.1]
        exact sd_lookup_none a.1 rest hna
      rw [hnone]
      have h1 : lastBinding [a] a.1 = some a.2 := by
        rw [lastBinding]
        simp [List.lookup]
      have h2 : List.lookup a.1 ([a] ++ rest) = some a.2 := by
        rw [List.singleton_append]
        simp [List.lookup]
      rw [h2, h1]
    · have hb : (k == a.1) = false := beq_eq_false_iff_ne.mpr hka
      have h2 : List.lookup k ([a] ++ rest) = List.lookup k rest := by
        rw [List.singleton_append]
        simp [List.lookup, hb]
      cases hc : lastBinding rest k with
      | some v =>
        rw [h2, ← ihr k, hc]
      | none =>
        have h1 : lastBinding [a] k = none := by
          rw [lastBinding]
          simp [List.lookup, hb]
        rw [h1, h2, ← ihr k, hc]

theorem sd_pairs_keys {α : Type} (l : List (String × α)) :
    (sortedDictOfPairs l).map Prod.fst = dedupKeysGo [] (l.map Prod.fst) := by
  rw [sortedDictOfPairs]
  refine filterMap_pairs_keys _ _ ?_
  intro k hk
  have hkl : k ∈ l.map Prod.fst := dedup_subset [] _ k hk
  have hkr : k ∈ (l.reverse).map Prod.fst := by
    rw [List.map_reverse]
    exact List.mem_reverse.mpr hkl
  obtain ⟨v, hv⟩ := sd_lookup_mem k l.reverse hkr
  exact ⟨v, by rw [lastBinding]; exact hv⟩

/-- C2: resolving a subclass's declared fields places the base type's
fields first, the subclass's own newly declared fields after them ordered
by their creation counters, and a name redeclared in the subclass keeps
the base field's position while taking the subclass's instance; base
fields A, B, C with a subclass adding D and overriding B resolve to
A, B(override), C, D. -/
theorem claim_C2_declared_order
    (base attrs : List (String × DField))
    (hb : (base.map Prod.fst).Nodup) (ha : (attrs.map Prod.fst).Nodup) :
    (get_declared_fields [base] attrs).map Prod.fst =
      base.map Prod.fst ++
        ((sortByCounter attrs).map Prod.fst).filter
          (fun k => !(base.map Prod.fst).contains k) ∧
    (∀ k, k ∈ (sortByCounter attrs).map Prod.fst →
      List.lookup k (get_declared_fields [base] attrs) =
        List.lookup k (sortByCounter attrs)) ∧
    (∀ k, k ∈ base.map Prod.fst → k ∉ (sortByCounter attrs).map Prod.fst →
      List.lookup k (get_declared_fields [base] attrs) =
        List.lookup k base) ∧
    get_declared_fields [baseABC] subDB =
      [("A", ⟨1, 10⟩), ("B", ⟨4, 21⟩), ("C", ⟨3, 12⟩), ("D", ⟨5, 20⟩)] := by
  have hdf : get_declared_fields [base] attrs =
      sortedDictOfPairs (base ++ sortByCounter attrs) := rfl
  have hoa : ((sortByCounter attrs).map Prod.fst).Nodup :=
    (((List.perm_insertionSort counterRel attrs).map Prod.fst).nodup_iff).mpr ha
  have hmemdedup : ∀ k, k ∈ (sortByCounter attrs).map Prod.fst ∨
      k ∈ base.map Prod.fst →
      k ∈ dedupKeysGo [] ((base ++ sortByCounter attrs).map Prod.fst) := by
    intro k hk
    rw [List.map_append, dedup_append_nodup _ [] _ hb (fun k _ => rfl) hoa]
    by_cases hkb : k ∈ base.map Prod.fst
    · exact List.mem_append_left _ hkb
    · cases hk with
      | inr h => exact absurd h hkb
      | inl h =>
        refine List.mem_append_right _ (List.mem_filter.mpr ⟨h, ?_⟩)
        have hcb : (base.map Prod.fst).contains k = false :=
          (sd_contains_false _ _).mpr hkb
        rw [show (([] : List String).contains k) = false from rfl, hcb]
        rfl
  refine ⟨?_, ?_, ?_, by decide⟩
  · rw [hdf, sd_pairs_keys, List.map_append,
      dedup_append_nodup _ [] _ hb (fun k _ => rfl) hoa]
    have hp : (fun k => !(([] : List String).contains k ||
        (base.map Prod.fst).contains k)) =
        (fun k => !(base.map Prod.fst).contains k) := by
      funext k
      rw [show (([] : List String).contains k) = false from rfl, Bool.false_or]
    rw [hp]
  · intro k hk
    obtain ⟨v, hv⟩ := sd_lookup_mem k (sortByCounter attrs) hk
    have hlb : lastBinding (base ++ sortByCounter attrs) k = some v := by
      rw [lastBinding_append,
        show lastBinding (sortByCounter attrs) k = some v from by
          rw [lastBinding_eq_lookup _ hoa k]; exact hv]
    rw [hdf, sortedDictOfPairs,
      lookup_filterMap_pairs _ _ k v (hmemdedup k (Or.inl hk)) hlb, hv]
  · intro k hkb hkown
    obtain ⟨v, hv⟩ := sd_lookup_mem k base hkb
    have hnone : lastBinding (sortByCounter attrs) k = none := by
      rw [lastBinding_eq_lookup _ hoa k]
      exact sd_lookup_none k _ hkown
    have hlb : lastBinding (base ++ sortByCounter attrs) k = some v := by
      rw [lastBinding_append, hnone]
      show lastBinding base k = some v
      rw [lastBinding_eq_lookup _ hb k]
      exact hv
    rw [hdf, sortedDictOfPairs,
      lookup_filterMap_pairs _ _ k v (hmemdedup k (Or.inr hkb)) hlb, hv]

/-- C2 witness: the base A, B, C and subclass D, B(override) scenario,
checking the key order and that B resolves to the subclass's instance
while A keeps the base's. -/
theorem claim_C2_witness :
    (get_declared_fields [baseABC] subDB).map Prod.fst =
      baseABC.map Prod.fst ++ ((sortByCounter subDB).map Prod.fst).filter
        (fun k => !(baseABC.map Prod.fst).contains k) ∧
    List.lookup "B" (get_declared_fields [baseABC] subDB) =
      List.lookup "B" (sortByCounter subDB) ∧
    List.lookup "A" (get_declared_fields [baseABC] subDB) =
      List.lookup "A" baseABC := by
  have h := claim_C2_declared_order baseABC subDB (by decide) (by decide)
  exact ⟨h.1, h.2.1 "B" (by decide), h.2.2.1 "A" (by decide) (by decide)⟩

/-- C8: a field whose `is_root` option is set converts via `to_native` of
the container object itself — `field_to_native` records the traversal
scratch and bypasses sub-attribute extraction; when a serializer has an
`is_root` field, `serialize` leaves the instance's own
`fields`/`exclude`/`nested` options untouched and routes those overrides
to the root field's options; and in the `rootHost` scenario the enclosing
serializer's output mapping is identical to the root field's own
`to_native` output, with no wrapping key. -/
theorem claim_C8_is_root_semantics
    (h : Heap) (fuel : Nat) (s : SState) (objId : Nat) (name : String)
    (hroot : s.isRootOf = true) :
    field_to_native h (fuel + 1) s objId name =
      wEval h fuel (s.withContext (some objId) (some name))
        (.toNative (.ref objId)) ∧
    (∀ t : SState, ∀ ov : SOverrides,
      (t.fieldsOf.any fun kv => isRootField kv.2) = true →
      (routeOverrides t ov).allowOf = t.allowOf ∧
      (routeOverrides t ov).exclOf = t.exclOf ∧
      (routeOverrides t ov).nestedOf = t.nestedOf) ∧
    serialize_python rootHeap 20 rootHost ⟨none, none, none⟩ (.ref 0) =
      Except.ok (.pmap [("a", .pint 1), ("b", .pstr "s")],
        .mk .baseS (.nbool false) false [] [] [0] none none
          [("data", .child rootChildInit)]) ∧
    field_to_native rootHeap 20 rootChildInit 0 "data" =
      Except.ok (.pmap [("a", .pint 1), ("b", .pstr "s")],
        .mk .objectS (.nbool false) true [] [] [0, 0] (some 0) (some "data") []) ∧
    routeOverrides rootHost ⟨some ["a"], none, some (.nint 3)⟩ =
      .mk .baseS (.nbool false) false [] [] [] none none
        [("data", .child (.mk .objectS (.nint 3) true ["a"] [] [] none none []))] := by
  refine ⟨?_, ?_, by rfl, by rfl, by rfl⟩
  · rw [field_to_native]
    simp only [wEval, hroot]
    rfl
  · intro t ov hr
    rw [routeOverrides, if_pos hr]
    cases t with
    | mk v n r a e st o fn fs => exact ⟨rfl, rfl, rfl⟩

/-- C8 witness: the `rootChildInit` field with `is_root` set bypasses
extraction for object 0, and the routing and output-identity conjuncts at
the concrete scenario. -/
theorem claim_C8_witness :
    field_to_native rootHeap 20 rootChildInit 0 "data" =
      wEval rootHeap 19 (rootChildInit.withContext (some 0) (some "data"))
        (.toNative (.ref 0)) ∧
    serialize_python rootHeap 20 rootHost ⟨none, none, none⟩ (.ref 0) =
      Except.ok (.pmap [("a", .pint 1), ("b", .pstr "s")],
        .mk .baseS (.nbool false) false [] [] [0] none none
          [("data", .child rootChildInit)]) ∧
    (routeOverrides rootHost ⟨some ["a"], none, some (.nint 3)⟩).allowOf =
      rootHost.allowOf := by
  have h := claim_C8_is_root_semantics rootHeap 19 rootChildInit 0 "data" rfl
  exact ⟨h.1, h.2.2.1, (h.2.1 rootHost ⟨some ["a"], none, some (.nint 3)⟩
    (by rfl)).1⟩

/-- C1: serializing the cyclic pair X ⇄ Y terminates without raising —
`to_native(X)` returns an ok primitive tree in which the second occurrence
of X (reached through Y) is the flat `flatRef` value, not a nested
mapping; and in general, when `convert_object` meets an object already on
the visited stack of a non-root serializer, it returns the conversion of
only the currently-processing field (`self.obj`, `self.field_name`)
through the field set recomputed by `get_fields` with `nested=False`. -/
theorem claim_C1_cycle_flat_fallback
    (h : Heap) (fuel : Nat) (s : SState) (oid cid : Nat) (fname : String)
    (flds : List (String × FieldI)) (s1 : SState) (f : FieldI)
    (hmem : s.stackOf.contains oid = true) (hroot : s.isRootOf = false)
    (hcur : s.curObjOf = some cid) (hfn : s.fieldNameOf = some fname)
    (hgf : wGetFields h s (some cid) (.nbool false) = Except.ok (flds, s1))
    (hlk : List.lookup fname flds = some f) :
    to_native cycleHeap 20 cycleSer (.ref 0) =
      Except.ok (.pmap [("y", .pmap [("x", .flatRef 0)])],
        .mk .objectS (.nbool true) false [] [] [0] none none []) ∧
    convert_object h (fuel + 1) s oid =
      (match f with
       | .plain => (wEval h fuel s1 (.plainFieldToNative cid fname)).map
           (fun pr => (pr.1, s1))
       | .child cs => (wEval h fuel cs (.fieldToNative cid fname)).map
           (fun pr => (pr.1, s1))) := by
  refine ⟨by rfl, ?_⟩
  have hcond : (s.stackOf.contains oid && !s.isRootOf) = true := by
    rw [hmem, hroot]; rfl
  rw [convert_object]
  simp only [wEval, hcond, hcur, hfn, hgf, hlk, if_pos]
  cases f with
  | plain =>
    cases he : wEval h fuel s1 (.plainFieldToNative cid fname) with
    | ok pr => simp [Bind.bind, Except.bind, hlk, he, Except.map]
    | error e => simp [Bind.bind, Except.bind, hlk, he, Except.map]
  | child cs =>
    cases he : wEval h fuel cs (.fieldToNative cid fname) with
    | ok pr => simp [Bind.bind, Except.bind, hlk, he, Except.map]
    | error e => simp [Bind.bind, Except.bind, hlk, he, Except.map]

/-- C1 witness: the fallback equation instantiated at the inner serializer
state of the X ⇄ Y cycle — converting X a second time degrades to the
flat conversion of Y's field `x` — plus the terminating cycle run. -/
theorem claim_C1_witness :
    to_native cycleHeap 20 cycleSer (.ref 0) =
      Except.ok (.pmap [("y", .pmap [("x", .flatRef 0)])],
        .mk .objectS (.nbool true) false [] [] [0] none none []) ∧
    convert_object cycleHeap 6 cycleInner 0 =
      (wEval cycleHeap 5 cycleInner (.plainFieldToNative 1 "x")).map
        (fun pr => (pr.1, cycleInner)) := by
  have h := claim_C1_cycle_flat_fallback cycleHeap 5 cycleInner 0 1 "x"
    [("x", .plain)] cycleInner .plain (by rfl) (by rfl) (by rfl) (by rfl)
    (by rfl) (by rfl)
  exact ⟨h.1, h.2⟩

theorem stackOf_pushStack (s : SState) (oid : Nat) :
    (s.pushStack oid).stackOf = s.stackOf ++ [oid] := by
  cases s with
  | mk v n r a e st o fn fs => rfl

theorem stackOf_withContext (s : SState) (o : Option Nat) (fn : Option String) :
    (s.withContext o fn).stackOf = s.stackOf := by
  cases s with
  | mk v n r a e st o' fn' fs => rfl

theorem stackOf_withFields (s : SState) (fs : List (String × FieldI)) :
    (s.withFields fs).stackOf = s.stackOf := by
  cases s with
  | mk v n r a e st o fn fs' => rfl

/-- `get_fields` never touches the calling serializer's own cycle stack:
the instance it returns differs only in its re-initialized declared
fields. -/
theorem wGetFields_stack (h : Heap) (s : SState) (o : Option Nat) (n : NOpt)
    (flds : List (String × FieldI)) (s' : SState)
    (hg : wGetFields h s o n = Except.ok (flds, s')) :
    s'.stackOf = s.stackOf := by
  rw [wGetFields] at hg
  cases hd : defaultFieldsFor h s o n with
  | error e =>
    rw [hd] at hg
    simp [Bind.bind, Except.bind] at hg
  | ok ds =>
    rw [hd] at hg
    simp only [Bind.bind, Except.bind] at hg
    cases hc : getFieldsCore (s.fieldsOf.map fun kv => (kv.1, reinitField s kv.2))
        ds s.allowOf s.exclOf with
    | error e =>
      rw [hc] at hg
      simp at hg
    | ok r =>
      rw [hc] at hg
      simp only [Except.ok.injEq, Prod.mk.injEq] at hg
      rw [← hg.2, stackOf_withFields]

/-- Within one run of the walker, a serializer instance's cycle stack only
grows: every identity on the stack when a call starts is still on the
stack of the state the call returns. -/
theorem wEval_stack_mono : ∀ (fuel : Nat) (h : Heap) (s : SState) (c : WCall)
    (p : Prim) (s' : SState), wEval h fuel s c = Except.ok (p, s') →
    ∀ x, x ∈ s.stackOf → x ∈ s'.stackOf := by
  intro fuel
  induction fuel with
  | zero =>
    intro h s c p s' hev
    rw [wEval] at hev
    exact absurd hev (by simp)
  | succ fuel ih =>
    intro h s c p s' hev
    cases c with
    | toNative v =>
      cases v with
      | vnone =>
        simp only [wEval, Except.ok.injEq, Prod.mk.injEq] at hev
        rw [← hev.2]
        exact fun x hx => hx
      | vint n =>
        simp only [wEval, Except.ok.injEq, Prod.mk.injEq] at hev
        rw [← hev.2]
        exact fun x hx => hx
      | vstr t =>
        simp only [wEval, Except.ok.injEq, Prod.mk.injEq] at hev
        rw [← hev.2]
        exact fun x hx => hx
      | vlist xs =>
        simp only [wEval] at hev
        exact ih h s _ p s' hev
      | ref oid =>
        simp only [wEval] at hev
        exact ih h s _ p s' hev
    | toNativeSeq xs =>
      cases xs with
      | nil =>
        simp only [wEval, Except.ok.injEq, Prod.mk.injEq] at hev
        rw [← hev.2]
        exact fun x hx => hx
      | cons y rest =>
        simp only [wEval, Bind.bind, Except.bind] at hev
        cases h1 : wEval h fuel s (.toNative y) with
        | error e => rw [h1] at hev; simp at hev
        | ok pr1 =>
          obtain ⟨p1, s1⟩ := pr1
          rw [h1] at hev
          simp only [] at hev
          cases h2 : wEval h fuel s1 (.toNativeSeq rest) with
          | error e => rw [h2] at hev; simp at hev
          | ok pr2 =>
            obtain ⟨p2, s2⟩ := pr2
            rw [h2] at hev
            cases p2 with
            | plist ps =>
              simp only [Except.ok.injEq, Prod.mk.injEq] at hev
              rw [← hev.2]
              exact fun x hx => ih h s1 _ _ s2 h2 x (ih h s _ _ s1 h1 x hx)
            | pnone => simp at hev
            | pint n => simp at hev
            | pstr t => simp at hev
            | flatRef r => simp at hev
            | pmap es => simp at hev
    | convertObject oid =>
      simp only [wEval] at hev
      by_cases hc : (s.stackOf.contains oid && !s.isRootOf) = true
      · rw [if_pos hc] at hev
        cases ho : s.curObjOf with
        | none => rw [ho] at hev; cases hf : s.fieldNameOf <;> rw [hf] at hev <;> simp at hev
        | some cid =>
          rw [ho] at hev
          cases hf : s.fieldNameOf with
          | none => rw [hf] at hev; simp at hev
          | some fname =>
            rw [hf] at hev
            simp only [Bind.bind, Except.bind] at hev
            cases hg : wGetFields h s (some cid) (.nbool false) with
            | error e => rw [hg] at hev; simp at hev
            | ok pr =>
              obtain ⟨flds, s1⟩ := pr
              rw [hg] at hev
              dsimp only at hev
              have hst : s1.stackOf = s.stackOf := wGetFields_stack h s _ _ flds s1 hg
              cases hlk : List.lookup fname flds with
              | none => rw [hlk] at hev; simp at hev
              | some f =>
                rw [hlk] at hev
                dsimp only at hev
                cases f with
                | plain =>
                  dsimp only at hev
                  cases he : wEval h fuel s1 (.plainFieldToNative cid fname) with
                  | error e => rw [he] at hev; simp at hev
                  | ok pr2 =>
                    rw [he] at hev
                    simp only [Except.ok.injEq, Prod.mk.injEq] at hev
                    rw [← hev.2, hst]
                    exact fun x hx => hx
                | child cs =>
                  dsimp only at hev
                  cases he : wEval h fuel cs (.fieldToNative cid fname) with
                  | error e => rw [he] at hev; simp at hev
                  | ok pr2 =>
                    rw [he] at hev
                    simp only [Except.ok.injEq, Prod.mk.injEq] at hev
                    rw [← hev.2, hst]
                    exact fun x hx => hx
      · rw [if_neg hc] at hev
        simp only [Bind.bind, Except.bind] at hev
        cases hg : wGetFields h (s.pushStack oid) (some oid)
            (s.pushStack oid).nestedOf with
        | error e => rw [hg] at hev; simp at hev
        | ok pr =>
          obtain ⟨flds, s2⟩ := pr
          rw [hg] at hev
          dsimp only at hev
          have hst : s2.stackOf = (s.pushStack oid).stackOf :=
            wGetFields_stack h _ _ _ flds s2 hg
          cases he : wEval h fuel s2 (.convertLoop oid flds) with
          | error e => rw [he] at hev; simp at hev
          | ok pr2 =>
            obtain ⟨pm, s3⟩ := pr2
            rw [he] at hev
            simp only [Except.ok.injEq, Prod.mk.injEq] at hev
            rw [← hev.2]
            intro x hx
            refine ih h s2 _ _ s3 he x ?_
            rw [hst, stackOf_pushStack]
            exact List.mem_append_left _ hx
    | fieldToNative objId name =>
      simp only [wEval] at hev
      by_cases hr : s.isRootOf = true
      · rw [if_pos hr] at hev
        intro x hx
        refine ih h _ _ p s' hev x ?_
        rw [stackOf_withContext]
        exact hx
      · rw [if_neg hr] at hev
        simp only [Bind.bind, Except.bind] at hev
        cases hv : getattrE h objId name with
        | error e => rw [hv] at hev; simp at hev
        | ok v =>
          rw [hv] at hev
          intro x hx
          refine ih h _ _ p s' hev x ?_
          rw [stackOf_withContext]
          exact hx
    | convertLoop oid flds =>
      cases flds with
      | nil =>
        simp only [wEval, Except.ok.injEq, Prod.mk.injEq] at hev
        rw [← hev.2]
        exact fun x hx => hx
      | cons kv rest =>
        obtain ⟨name, f⟩ := kv
        simp only [wEval, Bind.bind, Except.bind] at hev
        cases f with
        | plain =>
          dsimp only at hev
          cases h1 : wEval h fuel s (.plainFieldToNative oid name) with
          | error e => rw [h1] at hev; simp at hev
          | ok pr1 =>
            obtain ⟨v1, t1⟩ := pr1
            rw [h1] at hev
            cases h2 : wEval h fuel s (.convertLoop oid rest) with
            | error e => rw [h2] at hev; simp at hev
            | ok pr2 =>
              obtain ⟨p2, s2⟩ := pr2
              rw [h2] at hev
              cases p2 with
              | pmap es =>
                simp only [Except.ok.injEq, Prod.mk.injEq] at hev
                rw [← hev.2]
                exact fun x hx => ih h s _ _ s2 h2 x hx
              | pnone => simp at hev
              | pint n => simp at hev
              | pstr t => simp at hev
              | flatRef r => simp at hev
              | plist ps => simp at hev
        | child cs =>
          dsimp only at hev
          cases h1 : wEval h fuel cs (.fieldToNative oid name) with
          | error e => rw [h1] at hev; simp at hev
          | ok pr1 =>
            obtain ⟨v1, t1⟩ := pr1
            rw [h1] at hev
            cases h2 : wEval h fuel s (.convertLoop oid rest) with
            | error e => rw [h2] at hev; simp at hev
            | ok pr2 =>
              obtain ⟨p2, s2⟩ := pr2
              rw [h2] at hev
              cases p2 with
              | pmap es =>
                simp only [Except.ok.injEq, Prod.mk.injEq] at hev
                rw [← hev.2]
                exact fun x hx => ih h s _ _ s2 h2 x hx
              | pnone => simp at hev
              | pint n => simp at hev
              | pstr t => simp at hev
              | flatRef r => simp at hev
              | plist ps => simp at hev
    | plainFieldToNative objId name =>
      simp only [wEval, Bind.bind, Except.bind] at hev
      cases hv : getattrE h objId name with
      | error e => rw [hv] at hev; simp at hev
      | ok v =>
        rw [hv] at hev
        exact ih h s _ p s' hev
    | flatValue v =>
      cases v with
      | vnone =>
        simp only [wEval, Except.ok.injEq, Prod.mk.injEq] at hev
        rw [← hev.2]
        exact fun x hx => hx
      | vint n =>
        simp only [wEval, Except.ok.injEq, Prod.mk.injEq] at hev
        rw [← hev.2]
        exact fun x hx => hx
      | vstr t =>
        simp only [wEval, Except.ok.injEq, Prod.mk.injEq] at hev
        rw [← hev.2]
        exact fun x hx => hx
      | ref r =>
        simp only [wEval, Except.ok.injEq, Prod.mk.injEq] at hev
        rw [← hev.2]
        exact fun x hx => hx
      | vlist xs =>
        simp only [wEval] at hev
        exact ih h s _ p s' hev
    | flatValueSeq xs =>
      cases xs with
      | nil =>
        simp only [wEval, Except.ok.injEq, Prod.mk.injEq] at hev
        rw [← hev.2]
        exact fun x hx => hx
      | cons y rest =>
        simp only [wEval, Bind.bind, Except.bind] at hev
        cases h1 : wEval h fuel s (.flatValue y) with
        | error e => rw [h1] at hev; simp at hev
        | ok pr1 =>
          obtain ⟨p1, s1⟩ := pr1
          rw [h1] at hev
          dsimp only at hev
          cases h2 : wEval h fuel s1 (.flatValueSeq rest) with
          | error e => rw [h2] at hev; simp at hev
          | ok pr2 =>
            obtain ⟨p2, s2⟩ := pr2
            rw [h2] at hev
            cases p2 with
            | plist ps =>
              simp only [Except.ok.injEq, Prod.mk.injEq] at hev
              rw [← hev.2]
              exact fun x hx => ih h s1 _ _ s2 h2 x (ih h s _ _ s1 h1 x hx)
            | pnone => simp at hev
            | pint n => simp at hev
            | pstr t => simp at hev
            | flatRef r => simp at hev
            | pmap es => simp at hev


/-- C9: within one top-level serialize call, an object's entry is never
removed from a serializer's visited stack after its conversion completes
(every identity on the stack when a walker call starts is still there when
the call returns ok), and membership is tested against the whole stack by
equality (`obj in self.stack`), not by path ancestry — so the repeated
sibling element X of the list `xs`, already converted once by the same
child serializer instance, is converted through the flat cycle fallback:
the second occurrence comes out as the flat value of the in-progress field
rather than a nested mapping. -/
theorem claim_C9_stack_persistence
    (h : Heap) (fuel : Nat) (s : SState) (c : WCall) (p : Prim) (s' : SState)
    (hev : wEval h fuel s c = Except.ok (p, s')) :
    (∀ x, x ∈ s.stackOf → x ∈ s'.stackOf) ∧
    to_native sibHeap 20 sibSer (.ref 0) =
      Except.ok (.pmap [("xs", .plist [.pmap [("v", .pint 42)],
        .plist [.flatRef 1, .flatRef 1]])],
        .mk .objectS (.nbool true) false [] [] [0] none none []) ∧
    sibInner.stackOf.contains 1 = true ∧
    convert_object sibHeap 10 sibInner 1 =
      Except.ok (.plist [.flatRef 1, .flatRef 1], sibInner) :=
  ⟨fun x hx => wEval_stack_mono fuel h s c p s' hev x hx, by rfl, by rfl, by rfl⟩

/-- C9 witness: the persistence statement instantiated at the successful
sibling-scenario run. -/
theorem claim_C9_witness :
    (∀ x, x ∈ sibSer.stackOf →
      x ∈ (SState.mk .objectS (.nbool true) false [] [] [0] none none
        []).stackOf) ∧
    convert_object sibHeap 10 sibInner 1 =
      Except.ok (.plist [.flatRef 1, .flatRef 1], sibInner) := by
  have h := claim_C9_stack_persistence sibHeap 20 sibSer (.toNative (.ref 0))
    (.pmap [("xs", .plist [.pmap [("v", .pint 42)],
      .plist [.flatRef 1, .flatRef 1]])])
    (.mk .objectS (.nbool true) false [] [] [0] none none []) (by rfl)
  exact ⟨h.1, h.2.2.2⟩
